import Mathlib

/-!
Verification of the saccade Stage-2 skeleton generator core
(`core/src/parser.rs` and `core/src/stage2.rs`).

File contents are modelled as `List Char`; Rust byte offsets into a `&str`
are modelled through the UTF-8 byte width of each character
(`Char.utf8Size`), so that character-boundary questions are faithfully
represented.  Pure Rust functions become Lean functions; the rayon
parallel section of `Stage2Generator::generate` becomes a fold over an
explicit completion order (a permutation of the input list), which is the
only scheduling-visible state in the source (the order of pushes into the
mutex-guarded result vector; the three atomic counters commute).  The
tree-sitter library itself (grammar loading, parsing, query evaluation) is
external third-party code; it enters the model as an oracle producing the
query-match list that the loop in `skeletonize_file` consumes.
-/

/-! ### UTF-8 byte model (for `parser.rs::safe_slice`) -/

/-- Total UTF-8 byte length of a character list, mirroring `str::len`. -/
def utf8Len : List Char → Nat
  | [] => 0
  | c :: cs => c.utf8Size + utf8Len cs

/-- Mirrors `str::is_char_boundary`: `i` is `0`, or the byte offset of the
start of a character (equivalently the end of the string).  Offsets past
the end are not boundaries. -/
def isCharBoundary : List Char → Nat → Bool
  | [], i => i == 0
  | c :: cs, i => i == 0 || (c.utf8Size ≤ i && isCharBoundary cs (i - c.utf8Size))

/-- The characters of `s` whose byte span lies inside `[a, b)`; at
character-boundary offsets this is exactly the Rust byte slice `s[a..b]`
re-read as text. -/
def extractBytes : List Char → Nat → Nat → List Char
  | [], _, _ => []
  | c :: cs, a, b =>
    if c.utf8Size ≤ a then extractBytes cs (a - c.utf8Size) (b - c.utf8Size)
    else if c.utf8Size ≤ b then c :: extractBytes cs 0 (b - c.utf8Size)
    else []

/-- The loop `while a > 0 && !s.is_char_boundary(a) { a -= 1; }` from
`safe_slice`. -/
def walkDown (s : List Char) : Nat → Nat
  | 0 => 0
  | a + 1 => if isCharBoundary s (a + 1) then a + 1 else walkDown s a

/-- Helper for `walkUp`, structurally recursive on the remaining distance
to the end of the string (`fuel = s.len() - b`, which bounds the number of
loop iterations since the loop stops at `b = s.len()`). -/
def walkUpAux (s : List Char) : Nat → Nat → Nat
  | 0, b => b
  | fuel + 1, b => if isCharBoundary s b then b else walkUpAux s fuel (b + 1)

/-- The loop `while b < s.len() && !s.is_char_boundary(b) { b += 1; }` from
`safe_slice`. -/
def walkUp (s : List Char) (b : Nat) : Nat :=
  walkUpAux s (utf8Len s - b) b

/-- Mirrors `str::get(a..b)`: `Some` of the slice when both offsets are
character boundaries and `a <= b` (a boundary is necessarily `<= len`),
`None` otherwise. -/
def strGet (s : List Char) (a b : Nat) : Option (List Char) :=
  if isCharBoundary s a && isCharBoundary s b && Nat.ble a b then
    some (extractBytes s a b)
  else none

/-- `parser.rs::safe_slice`: return a slice by byte offsets, guarding UTF-8
boundaries.  Every operation used by the source (comparisons,
increment/decrement, `is_char_boundary`, `str::get`) is non-panicking, and
so is this model: it is a total function. -/
def safe_slice (s : List Char) (start stop : Nat) : Option (List Char) :=
  if start > stop ∨ stop > utf8Len s then none
  else strGet s (walkDown s start) (walkUp s stop)

/-! ### Lemmas about the byte model -/

theorem utf8Size_pos (c : Char) : 0 < c.utf8Size := by
  have h := Char.utf8Size_pos c
  exact h

theorem isCharBoundary_zero (s : List Char) : isCharBoundary s 0 = true := by
  cases s <;> simp [isCharBoundary]

theorem isCharBoundary_utf8Len (s : List Char) :
    isCharBoundary s (utf8Len s) = true := by
  induction s with
  | nil => simp [isCharBoundary, utf8Len]
  | cons c cs ih =>
    simp only [isCharBoundary, utf8Len]
    have := utf8Size_pos c
    have : c.utf8Size + utf8Len cs - c.utf8Size = utf8Len cs := by omega
    simp [this, ih, Nat.le_add_right]

theorem isCharBoundary_le_len (s : List Char) (i : Nat)
    (h : isCharBoundary s i = true) : i ≤ utf8Len s := by
  induction s generalizing i with
  | nil => simp [isCharBoundary] at h; simp [h, utf8Len]
  | cons c cs ih =>
    simp only [isCharBoundary, Bool.or_eq_true, beq_iff_eq, Bool.and_eq_true,
      decide_eq_true_eq] at h
    rcases h with h | ⟨h1, h2⟩
    · simp [h]
    · have := ih _ h2
      simp only [utf8Len]
      omega

theorem walkDown_le (s : List Char) (a : Nat) : walkDown s a ≤ a := by
  induction a with
  | zero => simp [walkDown]
  | succ n ih =>
    simp only [walkDown]
    split
    · exact Nat.le_refl _
    · exact Nat.le_trans ih (Nat.le_succ n)

theorem isCharBoundary_walkDown (s : List Char) (a : Nat) :
    isCharBoundary s (walkDown s a) = true := by
  induction a with
  | zero => simpa [walkDown] using isCharBoundary_zero s
  | succ n ih =>
    simp only [walkDown]
    split
    · assumption
    · exact ih

theorem walkDown_eq_of_boundary (s : List Char) (a : Nat)
    (h : isCharBoundary s a = true) : walkDown s a = a := by
  cases a with
  | zero => simp [walkDown]
  | succ n => simp [walkDown, h]

theorem walkDown_maximal (s : List Char) (a j : Nat)
    (h1 : walkDown s a < j) (h2 : j ≤ a) : isCharBoundary s j = false := by
  induction a with
  | zero => omega
  | succ n ih =>
    by_cases hb : isCharBoundary s (n + 1) = true
    · rw [walkDown_eq_of_boundary s _ hb] at h1; omega
    · have hb' : isCharBoundary s (n + 1) = false := by
        simpa using hb
      rw [walkDown] at h1
      simp [hb'] at h1
      rcases Nat.lt_or_ge j (n + 1) with hj | hj
      · exact ih h1 (by omega)
      · have : j = n + 1 := by omega
        rw [this]; exact hb'

theorem walkUpAux_ge (s : List Char) (fuel b : Nat) :
    b ≤ walkUpAux s fuel b := by
  induction fuel generalizing b with
  | zero => simp [walkUpAux]
  | succ n ih =>
    simp only [walkUpAux]
    split
    · exact Nat.le_refl _
    · exact Nat.le_trans (Nat.le_succ b) (ih (b + 1))

theorem walkUp_ge (s : List Char) (b : Nat) : b ≤ walkUp s b :=
  walkUpAux_ge s _ b

theorem walkUpAux_boundary (s : List Char) (fuel b : Nat)
    (hf : utf8Len s ≤ b + fuel) (hb : b ≤ utf8Len s) :
    isCharBoundary s (walkUpAux s fuel b) = true := by
  induction fuel generalizing b with
  | zero =>
    have : b = utf8Len s := by omega
    simp only [walkUpAux, this]
    exact isCharBoundary_utf8Len s
  | succ n ih =>
    simp only [walkUpAux]
    split
    · assumption
    · rename_i h
      have hne : b ≠ utf8Len s := by
        intro hc
        rw [hc] at h
        exact h (isCharBoundary_utf8Len s)
      exact ih (b + 1) (by omega) (by omega)

theorem walkUp_boundary (s : List Char) (b : Nat) (hb : b ≤ utf8Len s) :
    isCharBoundary s (walkUp s b) = true :=
  walkUpAux_boundary s _ b (by omega) hb

theorem walkUp_eq_of_boundary (s : List Char) (b : Nat)
    (h : isCharBoundary s b = true) : walkUp s b = b := by
  unfold walkUp
  cases hf : utf8Len s - b with
  | zero => simp [walkUpAux]
  | succ n => simp [walkUpAux, h]

theorem walkUpAux_minimal (s : List Char) (fuel b j : Nat)
    (h1 : b ≤ j) (h2 : j < walkUpAux s fuel b) : isCharBoundary s j = false := by
  induction fuel generalizing b with
  | zero => simp [walkUpAux] at h2; omega
  | succ n ih =>
    simp only [walkUpAux] at h2
    by_cases hb : isCharBoundary s b = true
    · simp [hb] at h2; omega
    · have hb' : isCharBoundary s b = false := by simpa using hb
      simp [hb'] at h2
      rcases Nat.lt_or_ge b j with hj | hj
      · exact ih (b + 1) (by omega) h2
      · have : j = b := by omega
        rw [this]; exact hb'

theorem walkUp_minimal (s : List Char) (b j : Nat)
    (h1 : b ≤ j) (h2 : j < walkUp s b) : isCharBoundary s j = false :=
  walkUpAux_minimal s _ b j h1 h2

theorem extractBytes_prefix (s : List Char) (b : Nat)
    (h : isCharBoundary s b = true) :
    ∃ post, s = extractBytes s 0 b ++ post := by
  induction s generalizing b with
  | nil => exact ⟨[], by simp [extractBytes]⟩
  | cons c cs ih =>
    simp only [isCharBoundary, Bool.or_eq_true, beq_iff_eq, Bool.and_eq_true,
      decide_eq_true_eq] at h
    rcases h with h | ⟨h1, h2⟩
    · refine ⟨c :: cs, ?_⟩
      have hpos := utf8Size_pos c
      simp [extractBytes, h, Nat.not_le.mpr hpos]
    · obtain ⟨post, hp⟩ := ih (b - c.utf8Size) h2
      refine ⟨post, ?_⟩
      have hpos := utf8Size_pos c
      simp only [extractBytes, Nat.not_le.mpr hpos, if_false, h1, if_true]
      simpa using congrArg (c :: ·) hp

theorem extractBytes_infix (s : List Char) (a b : Nat)
    (ha : isCharBoundary s a = true) (hb : isCharBoundary s b = true)
    (hab : a ≤ b) :
    ∃ pre post, s = pre ++ extractBytes s a b ++ post := by
  induction s generalizing a b with
  | nil => exact ⟨[], [], by simp [extractBytes]⟩
  | cons c cs ih =>
    by_cases h0 : a = 0
    · subst h0
      obtain ⟨post, hp⟩ := extractBytes_prefix (c :: cs) b hb
      exact ⟨[], post, by simpa using hp⟩
    · simp only [isCharBoundary, Bool.or_eq_true, beq_iff_eq, Bool.and_eq_true,
        decide_eq_true_eq] at ha hb
      rcases ha with ha | ⟨ha1, ha2⟩
      · exact absurd ha h0
      · have hb2 : isCharBoundary cs (b - c.utf8Size) = true := by
          rcases hb with hb | ⟨_, hb2⟩
          · omega
          · exact hb2
        obtain ⟨pre, post, hp⟩ := ih _ _ ha2 hb2 (by omega)
        refine ⟨c :: pre, post, ?_⟩
        simp only [extractBytes, ha1, if_true]
        simpa using congrArg (c :: ·) hp

/-! ### Claim C9: `safe_slice` totality and UTF-8 safety -/

theorem safe_slice_some (s : List Char) (start stop : Nat)
    (h1 : start ≤ stop) (h2 : stop ≤ utf8Len s) :
    safe_slice s start stop
      = some (extractBytes s (walkDown s start) (walkUp s stop)) := by
  have hna : ¬ (start > stop ∨ stop > utf8Len s) := by omega
  have hba : isCharBoundary s (walkDown s start) = true :=
    isCharBoundary_walkDown s start
  have hbb : isCharBoundary s (walkUp s stop) = true :=
    walkUp_boundary s stop h2
  have hle : walkDown s start ≤ walkUp s stop :=
    Nat.le_trans (walkDown_le s start)
      (Nat.le_trans h1 (walkUp_ge s stop))
  have hcond : (isCharBoundary s (walkDown s start)
      && isCharBoundary s (walkUp s stop)
      && Nat.ble (walkDown s start) (walkUp s stop)) = true := by
    rw [hba, hbb]
    simpa [Nat.ble_eq] using hle
  simp only [safe_slice, hna, if_false, strGet, hcond, if_true]

/-- Claim C9: `safe_slice` is total (it is a plain Lean function built from
non-panicking operations) and UTF-8 safe: it returns `none` exactly when
`start > stop` or `stop > s.len()`; otherwise it returns `some` of the text
obtained by walking `start` down to the nearest character boundary at or
below it and `stop` up to the nearest character boundary at or above it
(the maximality/minimality conjuncts), and any returned text is a
contiguous run of whole characters of `s` — never a truncated or invalid
UTF-8 fragment. -/
theorem safe_slice_utf8_safe (s : List Char) (start stop : Nat) :
    (safe_slice s start stop = none ↔ (stop < start ∨ utf8Len s < stop))
    ∧ (start ≤ stop → stop ≤ utf8Len s →
        safe_slice s start stop
          = some (extractBytes s (walkDown s start) (walkUp s stop))
        ∧ isCharBoundary s (walkDown s start) = true
        ∧ walkDown s start ≤ start
        ∧ (∀ j, walkDown s start < j → j ≤ start → isCharBoundary s j = false)
        ∧ isCharBoundary s (walkUp s stop) = true
        ∧ stop ≤ walkUp s stop
        ∧ (∀ j, stop ≤ j → j < walkUp s stop → isCharBoundary s j = false))
    ∧ (∀ r, safe_slice s start stop = some r →
        ∃ pre post, s = pre ++ r ++ post) := by
  refine ⟨?_, ?_, ?_⟩
  · constructor
    · intro h
      by_contra hc
      have h1 : start ≤ stop := by omega
      have h2 : stop ≤ utf8Len s := by omega
      rw [safe_slice_some s start stop h1 h2] at h
      exact Option.noConfusion h
    · intro h
      simp only [safe_slice]
      have : start > stop ∨ stop > utf8Len s := by omega
      simp [this]
  · intro h1 h2
    refine ⟨safe_slice_some s start stop h1 h2,
      isCharBoundary_walkDown s start, walkDown_le s start,
      fun j hj1 hj2 => walkDown_maximal s start j hj1 hj2,
      walkUp_boundary s stop h2, walkUp_ge s stop,
      fun j hj1 hj2 => walkUp_minimal s stop j hj1 hj2⟩
  · intro r hr
    by_cases hok : start ≤ stop ∧ stop ≤ utf8Len s
    · rw [safe_slice_some s start stop hok.1 hok.2] at hr
      have hreq : r = extractBytes s (walkDown s start) (walkUp s stop) :=
        (Option.some_inj.mp hr).symm
      subst hreq
      exact extractBytes_infix s _ _ (isCharBoundary_walkDown s start)
        (walkUp_boundary s stop hok.2)
        (Nat.le_trans (walkDown_le s start)
          (Nat.le_trans hok.1 (walkUp_ge s stop)))
    · have : start > stop ∨ stop > utf8Len s := by omega
      simp [safe_slice, this] at hr

/-- Concrete check of C9: the string is "a⋯b" (the middle character is
3 bytes wide, total byte length 5).  Slicing `[2, 3)` lands strictly inside
the multi-byte character; the boundaries are walked to `1` and `4`, so the
whole character is returned intact. -/
theorem safe_slice_utf8_safe_witness :
    (2 ≤ 3 ∧ (3 : Nat) ≤ utf8Len "a⋯b".toList)
    ∧ safe_slice "a⋯b".toList 2 3 = some ['⋯'] := by
  have h := (safe_slice_utf8_safe "a⋯b".toList 2 3).2.1
    (by decide) (by decide)
  exact ⟨⟨by decide, by decide⟩, by rw [h.1]; decide⟩

/-! ### The capture-processing loop of `parser.rs::skeletonize_file`

Tree-sitter (grammar selection, `Parser::parse`, `Query::new`,
`QueryCursor::matches`) is an external library; the loop over its query
matches (parser.rs lines 174-238) is the repository code modelled here.  A
match is the list of its captures, each a capture name together with the
captured syntax-tree node (identity, start byte, end byte).  The
tree-sitter front end enters as an oracle from extension and content to
the match list (`none` models `set_language` failure, a `None` parse tree,
or a query compile error, each of which makes `skeletonize_file` decline
the file). -/

/-- A syntax-tree node as the loop sees it: `Node::id`, `Node::start_byte`,
`Node::end_byte`. -/
structure SNode where
  id : Nat
  startByte : Nat
  endByte : Nat
deriving DecidableEq, Repr

/-- One query capture: capture name and captured node. -/
structure SCapture where
  name : String
  node : SNode
deriving DecidableEq, Repr

/-- One query match: its capture list in capture order. -/
structure QMatch where
  captures : List SCapture
deriving DecidableEq, Repr

/-- The `caps` HashMap of the loop: captures are inserted in order, later
captures with the same name overwriting earlier ones, so lookup yields the
last capture bearing the name. -/
def capsGet (caps : List SCapture) (nm : String) : Option SNode :=
  ((caps.filter (fun c => c.name == nm)).map (fun c => c.node)).getLast?

/-- `str::trim` (modelled on ASCII whitespace, which is all that the
claims exercise). -/
def trimList (s : List Char) : List Char :=
  ((s.dropWhile Char.isWhitespace).reverse.dropWhile Char.isWhitespace).reverse

/-- `Node::utf8_text`: the byte range of the node re-read as UTF-8 text;
`Err` (here `none`) when the range is not valid text of the file. -/
def nodeText (content : List Char) (n : SNode) : Option (List Char) :=
  if isCharBoundary content n.startByte && isCharBoundary content n.endByte
      && Nat.ble n.startByte n.endByte then
    some (extractBytes content n.startByte n.endByte)
  else none

/-- One retained piece of skeleton text.  The source keeps only the string
(`results: Vec<String>`); the model additionally records the source byte
span the string was sliced from, so span properties can be stated. -/
structure Chunk where
  srcStart : Nat
  srcEnd : Nat
  text : List Char
deriving DecidableEq, Repr

/-- The def/body arm of the loop (parser.rs lines 186-201): slice
`[def.start_byte, body.start_byte)` via `safe_slice`, trim, and keep the
chunk when non-empty.  The recorded span is the byte range `safe_slice`
actually sliced (the walked boundaries). -/
def defBodyChunk (content : List Char) (d b : SNode) : Option Chunk :=
  if b.startByte ≥ d.startByte then
    match safe_slice content d.startByte b.startByte with
    | some sig =>
      let t := trimList sig
      if t.isEmpty then none
      else some ⟨walkDown content d.startByte, walkUp content b.startByte, t⟩
    | none => none
  else none

/-- The simple-capture arm (parser.rs lines 205-217, also reused for a def
with no body, lines 220-231): the node text, trimmed, kept when
non-empty. -/
def simpleChunk (content : List Char) (n : SNode) : Option Chunk :=
  match nodeText content n with
  | some tx =>
    let t := trimList tx
    if t.isEmpty then none else some ⟨n.startByte, n.endByte, t⟩
  | none => none

/-- The `seen_ids` guard shared by all three arms: if the node identity was
already visited do nothing; otherwise mark it visited and append the
chunk, if any, to the result list. -/
def markEmit (st : List Nat × List Chunk) (i : Nat) (c : Option Chunk) :
    List Nat × List Chunk :=
  if i ∈ st.1 then st
  else (i :: st.1, match c with | some ch => st.2 ++ [ch] | none => st.2)

/-- One iteration of `for m in matches` (parser.rs lines 177-232): prefer a
def/body pair, otherwise a simple capture, otherwise a def with no
body. -/
def stepMatch (content : List Char) (st : List Nat × List Chunk)
    (m : QMatch) : List Nat × List Chunk :=
  match capsGet m.captures "def", capsGet m.captures "body" with
  | some d, some b => markEmit st d.id (defBodyChunk content d b)
  | _, _ =>
    match capsGet m.captures "capture" with
    | some n => markEmit st n.id (simpleChunk content n)
    | none =>
      match capsGet m.captures "def" with
      | some d => markEmit st d.id (simpleChunk content d)
      | none => st

/-- The whole match loop, carrying (`seen_ids`, `results`). -/
def runState (content : List Char) (ms : List QMatch) :
    List Nat × List Chunk :=
  ms.foldl (stepMatch content) ([], [])

/-- The `results` vector after the match loop. -/
def runMatches (content : List Char) (ms : List QMatch) : List Chunk :=
  (runState content ms).2

/-- `parser.rs::CHUNK_SEPARATOR`. -/
def CHUNK_SEPARATOR : List Char := "\n---⋯\n".toList

/-- `Vec::join` over the separator. -/
def joinChunks : List (List Char) → List Char
  | [] => []
  | [x] => x
  | x :: xs => x ++ CHUNK_SEPARATOR ++ joinChunks xs

/-- Tail of `skeletonize_file` (parser.rs lines 234-238): `None` when no
chunk survived, else the separator-join. -/
def skeletonize_matches (content : List Char) (ms : List QMatch) :
    Option (List Char) :=
  let results := (runMatches content ms).map Chunk.text
  if results.isEmpty then none else some (joinChunks results)

/-- The closed extension set of the dispatch in `skeletonize_file`
(parser.rs lines 119-130). -/
def supportedExt (ext : List Char) : Bool :=
  ["js".toList, "jsx".toList, "mjs".toList, "cjs".toList, "ts".toList,
   "tsx".toList, "rs".toList, "py".toList].contains ext

/-- `parser.rs::skeletonize_file`: dispatch on the extension (unsupported
extensions decline immediately), run the tree-sitter front end (the
oracle `ts`), then the match loop. -/
def skeletonize_file (ts : List Char → List Char → Option (List QMatch))
    (content : List Char) (file_extension : List Char) :
    Option (List Char) :=
  if supportedExt file_extension then
    match ts file_extension content with
    | some ms => skeletonize_matches content ms
    | none => none
  else none

/-! ### Dedup and ordering lemmas for the match loop -/

/-- The node whose identity the loop checks against `seen_ids` for a given
match: the def node of a def/body pair, else the simple capture node, else
the body-less def node. -/
def primaryNode (m : QMatch) : Option SNode :=
  match capsGet m.captures "def", capsGet m.captures "body" with
  | some d, some _ => some d
  | _, _ =>
    match capsGet m.captures "capture" with
    | some n => some n
    | none => capsGet m.captures "def"

theorem markEmit_skip (st : List Nat × List Chunk) (i : Nat) (c : Option Chunk)
    (h : i ∈ st.1) : markEmit st i c = st := by
  simp [markEmit, h]

theorem markEmit_mem_self (st : List Nat × List Chunk) (i : Nat)
    (c : Option Chunk) : i ∈ (markEmit st i c).1 := by
  unfold markEmit
  split
  · assumption
  · exact List.mem_cons_self i st.1

theorem markEmit_seen_mono (st : List Nat × List Chunk) (i j : Nat)
    (c : Option Chunk) (h : j ∈ st.1) : j ∈ (markEmit st i c).1 := by
  unfold markEmit
  split
  · exact h
  · exact List.mem_cons_of_mem i h

/-- The chunk (if any) a single match contributes, following the arm
selection of the loop. -/
def matchChunk (content : List Char) (m : QMatch) : Option Chunk :=
  match capsGet m.captures "def", capsGet m.captures "body" with
  | some d, some b => defBodyChunk content d b
  | _, _ =>
    match capsGet m.captures "capture" with
    | some n => simpleChunk content n
    | none =>
      match capsGet m.captures "def" with
      | some d => simpleChunk content d
      | none => none

/-- Every loop iteration is: look up the primary node, skip if seen, else
mark it seen and append its chunk. -/
theorem stepMatch_eq (content : List Char) (st : List Nat × List Chunk)
    (m : QMatch) :
    stepMatch content st m =
      match primaryNode m with
      | some d => markEmit st d.id (matchChunk content m)
      | none => st := by
  unfold stepMatch primaryNode matchChunk
  cases hd : capsGet m.captures "def" <;>
    cases hb : capsGet m.captures "body" <;>
    cases hc : capsGet m.captures "capture" <;>
    simp [hd, hb, hc]

theorem stepMatch_skip (content : List Char) (st : List Nat × List Chunk)
    (m : QMatch) (d : SNode) (h : primaryNode m = some d) (hs : d.id ∈ st.1) :
    stepMatch content st m = st := by
  rw [stepMatch_eq, h]
  exact markEmit_skip st d.id _ hs

theorem stepMatch_primary_mem (content : List Char)
    (st : List Nat × List Chunk) (m : QMatch) (d : SNode)
    (h : primaryNode m = some d) : d.id ∈ (stepMatch content st m).1 := by
  rw [stepMatch_eq, h]
  exact markEmit_mem_self st d.id _

theorem stepMatch_seen_mono (content : List Char)
    (st : List Nat × List Chunk) (m : QMatch) (j : Nat) (h : j ∈ st.1) :
    j ∈ (stepMatch content st m).1 := by
  rw [stepMatch_eq]
  cases primaryNode m with
  | some d => exact markEmit_seen_mono st d.id j _ h
  | none => exact h

theorem foldl_seen_mono (content : List Char) (ms : List QMatch)
    (st : List Nat × List Chunk) (j : Nat) (h : j ∈ st.1) :
    j ∈ (ms.foldl (stepMatch content) st).1 := by
  induction ms generalizing st with
  | nil => exact h
  | cons m rest ih => exact ih _ (stepMatch_seen_mono content st m j h)

theorem markEmit_append (st : List Nat × List Chunk) (i : Nat)
    (c : Option Chunk) :
    ∃ δ, (markEmit st i c).2 = st.2 ++ δ ∧ δ.length ≤ 1 := by
  unfold markEmit
  split
  · exact ⟨[], by simp⟩
  · cases c with
    | some ch => exact ⟨[ch], by simp⟩
    | none => exact ⟨[], by simp⟩

theorem stepMatch_append (content : List Char) (st : List Nat × List Chunk)
    (m : QMatch) :
    ∃ δ, (stepMatch content st m).2 = st.2 ++ δ ∧ δ.length ≤ 1 := by
  rw [stepMatch_eq]
  cases primaryNode m with
  | some d => exact markEmit_append st d.id _
  | none => exact ⟨[], by simp⟩

/-! ### Concrete inputs used by the parser-loop claims

Byte offsets below are the tree-sitter node offsets for the stated ASCII
sources (one byte per character); node identities are arbitrary distinct
numbers, as `Node::id` guarantees within one tree. -/

/-- The Rust source `mod m { fn f() { 1 } }` (22 bytes). -/
def modFnContent : List Char := "mod m \x7b fn f() \x7b 1 \x7d \x7d".toList

/-- `(mod_item) @capture` match on `modFnContent`: the whole module,
bytes `[0, 22)`. -/
def mMod : QMatch := ⟨[⟨"capture", ⟨1, 0, 22⟩⟩]⟩

/-- `(function_item body: (_) @body) @def` match on `modFnContent`: the
nested function at bytes `[8, 20)`, body block at `[15, 20)`. -/
def mFn : QMatch := ⟨[⟨"def", ⟨2, 8, 20⟩⟩, ⟨"body", ⟨3, 15, 20⟩⟩]⟩

/-- The Rust source `mod m { struct S; }` (19 bytes). -/
def modStructContent : List Char := "mod m \x7b struct S; \x7d".toList

/-- Tree-sitter front end for `modStructContent` under `RUST_QUERY`:
`(mod_item) @capture` fires on the module node (bytes `[0, 19)`) and
`(struct_item) @capture` on the nested struct node (bytes `[8, 17)`). -/
def tsRustNested : List Char → List Char → Option (List QMatch) :=
  fun ext c =>
    if ext = "rs".toList ∧ c = modStructContent then
      some [⟨[⟨"capture", ⟨1, 0, 19⟩⟩]⟩, ⟨[⟨"capture", ⟨2, 8, 17⟩⟩]⟩]
    else none

/-- A `(use_declaration) @capture` match on the source `use a;`. -/
def mUse : QMatch := ⟨[⟨"capture", ⟨1, 0, 6⟩⟩]⟩

/-- A `(function_item body: (_) @body) @def` match on the source
`fn f() { 1 }`: def node `[0, 12)`, body node `[7, 12)`. -/
def mFnOnly : QMatch := ⟨[⟨"def", ⟨1, 0, 12⟩⟩, ⟨"body", ⟨2, 7, 12⟩⟩]⟩

/-! ### Claim C4: chunk ordering and span overlap -/

/-- Claim C4 counterexample.  The file is the Rust source
`mod m { fn f() { 1 } }` (braces written with escapes).  `RUST_QUERY`
matches the whole `mod_item` (bytes 0-22) as a simple `@capture` rule and
the nested `function_item` (bytes 8-20, body at 15-20) as a `@def`/`@body`
rule — matches listed in ascending start order, as tree-sitter yields them
here.  The loop emits the full module text as one chunk with span
`[0, 22)` and the function signature as a second chunk with span
`[8, 15)`: the two source byte spans overlap, refuting the no-overlap
conjunct of the claim (nothing is ever sorted or overlap-checked in
parser.rs lines 174-238). -/
theorem chunk_spans_overlap_cex :
    runMatches modFnContent [mMod, mFn] =
      [⟨0, 22, modFnContent⟩, ⟨8, 15, "fn f()".toList⟩]
    ∧ ((8 : Nat) < 22 ∧ (0 : Nat) < 15) := by
  constructor
  · decide
  · decide

/-- Claim C4 (amended): the loop never reorders chunks: they accumulate in
query-match order, each match appending at most one chunk at the end of
the result vector, and (per the counterexample) chunks from distinct
nested nodes may have overlapping source byte spans. -/
theorem chunks_follow_match_order (content : List Char) (ms : List QMatch)
    (m : QMatch) :
    ∃ δ, runMatches content (ms ++ [m]) = runMatches content ms ++ δ
      ∧ δ.length ≤ 1 := by
  unfold runMatches runState
  rw [List.foldl_append]
  simp only [List.foldl_cons, List.foldl_nil]
  exact stepMatch_append content _ m

/-! ### Claim C5: deduplication -/

/-- Claim C5 counterexample.  The file is the Rust source
`mod m { struct S; }`.  `RUST_QUERY` has `(mod_item) @capture` (line 83)
and `(struct_item) @capture` (line 79); the `struct_item` node is a child
of the `mod_item` node, so the same source content participates in both
matches.  The two nodes have distinct identities, so the `seen_ids` check
skips neither: the skeleton contains the struct text twice — once inside
the full module chunk and once as its own chunk — refuting "exactly one
chunk for that content, not two". -/
theorem nested_rules_duplicate_content_cex :
    skeletonize_file tsRustNested modStructContent "rs".toList
      = some (modStructContent ++ CHUNK_SEPARATOR ++ "struct S;".toList)
    ∧ modStructContent
        = "mod m \x7b ".toList ++ "struct S;".toList ++ " \x7d".toList := by
  constructor
  · decide
  · decide

/-- Claim C5 (amended): the deduplication the code performs is by node
identity: a match whose primary node carries an identity that was already
processed (for example the same node captured by two different rules)
contributes nothing.  Distinct nodes — even a node and its ancestor — are
each processed, as the counterexample shows. -/
theorem dedup_by_node_identity (content : List Char) (pre mid : List QMatch)
    (m₁ m₂ : QMatch) (d₁ d₂ : SNode)
    (h₁ : primaryNode m₁ = some d₁) (h₂ : primaryNode m₂ = some d₂)
    (hid : d₂.id = d₁.id) :
    runMatches content ((pre ++ m₁ :: mid) ++ [m₂])
      = runMatches content (pre ++ m₁ :: mid) := by
  unfold runMatches runState
  rw [List.foldl_append]
  simp only [List.foldl_cons, List.foldl_nil]
  have hmem : d₂.id ∈ (List.foldl (stepMatch content) ([], [])
      (pre ++ m₁ :: mid)).1 := by
    rw [List.foldl_append]
    simp only [List.foldl_cons]
    refine foldl_seen_mono content mid _ d₂.id ?_
    rw [hid]
    exact stepMatch_primary_mem content _ m₁ d₁ h₁
  rw [stepMatch_skip content _ m₂ d₂ h₂ hmem]

/-- Concrete check of the amended C5: the same `use_declaration` node
(identity 1) captured in two matches yields a skeleton that processes it
only once. -/
theorem dedup_by_node_identity_witness :
    runMatches "use a;".toList (([] ++ mUse :: []) ++ [mUse])
      = runMatches "use a;".toList ([] ++ mUse :: []) :=
  dedup_by_node_identity "use a;".toList [] [] mUse mUse ⟨1, 0, 6⟩ ⟨1, 0, 6⟩
    (by decide) (by decide) rfl

/-! ### Claim C8: signature-only extraction for def/body pairs -/

/-- Claim C8: for a match carrying both a "def" and a "body" capture (with
the def node not yet seen, the byte offsets in document order and on
character boundaries, as tree-sitter guarantees for nodes of valid UTF-8
input), the loop emits exactly the trimmed text of the byte span
`[def.start_byte, body.start_byte)` — the signature.  The emitted chunk's
source span ends exactly where the body node begins, so no byte of the
body's text `[body.start_byte, body.end_byte)` is part of the slice. -/
theorem def_body_signature_only (content : List Char)
    (st : List Nat × List Chunk) (m : QMatch) (d b : SNode)
    (hd : capsGet m.captures "def" = some d)
    (hb : capsGet m.captures "body" = some b)
    (hnew : d.id ∉ st.1)
    (hle : d.startByte ≤ b.startByte)
    (hbd : isCharBoundary content d.startByte = true)
    (hbb : isCharBoundary content b.startByte = true) :
    stepMatch content st m =
      (d.id :: st.1,
        st.2 ++
          (if (trimList (extractBytes content d.startByte b.startByte)).isEmpty
           then []
           else [⟨d.startByte, b.startByte,
                  trimList (extractBytes content d.startByte b.startByte)⟩])) := by
  have hlen : b.startByte ≤ utf8Len content := isCharBoundary_le_len content _ hbb
  have hslice : safe_slice content d.startByte b.startByte
      = some (extractBytes content d.startByte b.startByte) := by
    rw [safe_slice_some content _ _ hle hlen,
      walkDown_eq_of_boundary content _ hbd,
      walkUp_eq_of_boundary content _ hbb]
  unfold stepMatch
  simp only [hd, hb]
  unfold markEmit
  rw [if_neg hnew]
  unfold defBodyChunk
  rw [if_pos (by omega : b.startByte ≥ d.startByte), hslice]
  simp only
  rw [walkDown_eq_of_boundary content _ hbd, walkUp_eq_of_boundary content _ hbb]
  by_cases ht : (trimList (extractBytes content d.startByte b.startByte)).isEmpty
  · simp [ht]
  · simp [ht]

/-- Concrete check of C8: `fn f() { 1 }` with def node `[0, 12)` and body
node `[7, 12)` yields the single chunk `fn f()` covering `[0, 7)` — the
signature without the body text `{ 1 }`. -/
theorem def_body_signature_only_witness :
    stepMatch "fn f() \x7b 1 \x7d".toList ([], []) mFnOnly
      = ([1], [⟨0, 7, "fn f()".toList⟩]) := by
  rw [def_body_signature_only "fn f() \x7b 1 \x7d".toList ([], []) mFnOnly
    ⟨1, 0, 12⟩ ⟨2, 7, 12⟩ (by decide) (by decide) (by decide) (by decide)
    (by decide) (by decide)]
  decide

/-! ### `stage2.rs::Stage2Generator::generate`

The rayon `par_iter().for_each` body (stage2.rs lines 64-106) touches
shared state only through three atomic counters and one mutex-guarded
result vector.  Counter increments commute, so the only
scheduling-visible datum is the order of pushes into the vector; the
parallel section is therefore modelled as a sequential fold over an
explicit completion order, quantified over all permutations of the input
list in the theorems.  The filesystem is a function from paths to what
its two syscalls answer. -/

/-- A file path (a `PathBuf` holding valid Unicode), as its character
list; `PathBuf::cmp` is modelled by the lexicographic order on
characters. -/
abbrev FPath := List Char

/-- What the filesystem answers for one path: `fs::metadata(..).len()`
(`none` models a metadata error) and `fs::read_to_string` (`none` models a
read error or non-UTF-8 bytes). -/
structure FileEntry where
  meta : Option Nat
  content : Option (List Char)
deriving DecidableEq

/-- stage2.rs line 20: `MAX_FILE_SIZE_FOR_PARSING = 5 * 1024 * 1024`. -/
def MAX_FILE_SIZE_FOR_PARSING : Nat := 5 * 1024 * 1024

/-- `Path::file_name` as text: the final component. -/
def fileName (p : FPath) : List Char :=
  (p.reverse.takeWhile (fun c => c ≠ '/')).reverse

/-- `file_path.extension().and_then(|s| s.to_str())`: the suffix of the
file name after its last dot; `none` when the file name has no dot past
its first character (no dot at all, or a leading-dot hidden file). -/
def extensionOf (p : FPath) : Option (List Char) :=
  match fileName p with
  | [] => none
  | _ :: rest =>
    if rest.contains '.' then
      some (((fileName p).reverse.takeWhile (fun c => c ≠ '.')).reverse)
    else none

/-- Outcome of the loop body for one file: which of the three counters it
bumps, and the skeleton recorded on success. -/
inductive FileOutcome where
  | processed (skeleton : List Char)
  | skippedLarge
  | skippedUnsupported
deriving DecidableEq

/-- The loop body after the size gate (stage2.rs lines 75-105): extract
the extension (no extension: count unsupported without reading), read the
file, skeletonize; read errors and declined files count as unsupported.
The boolean records whether control reached `fs::read_to_string`. -/
def processAfterGate (ts : List Char → List Char → Option (List QMatch))
    (entry : FileEntry) (p : FPath) : FileOutcome × Bool :=
  match extensionOf p with
  | none => (.skippedUnsupported, false)
  | some ext =>
    match entry.content with
    | some content =>
      match skeletonize_file ts content ext with
      | some skel => (.processed skel, true)
      | none => (.skippedUnsupported, true)
    | none => (.skippedUnsupported, true)

/-- The whole loop body (stage2.rs lines 66-105): the size gate first —
when metadata is available and the length exceeds the ceiling, count
skipped-large and return without reading — then `processAfterGate`. -/
def processFileR (ts : List Char → List Char → Option (List QMatch))
    (fsys : FPath → FileEntry) (p : FPath) : FileOutcome × Bool :=
  let entry := fsys p
  match entry.meta with
  | some sz =>
    if sz > MAX_FILE_SIZE_FOR_PARSING then (.skippedLarge, false)
    else processAfterGate ts entry p
  | none => processAfterGate ts entry p

/-- The per-file outcome (dropping the read-attempt flag). -/
def processFile (ts : List Char → List Char → Option (List QMatch))
    (fsys : FPath → FileEntry) (p : FPath) : FileOutcome :=
  (processFileR ts fsys p).1

/-- The shared state after the parallel section: the three counters and
the mutex-guarded result vector in completion order. -/
structure GenState where
  processed : Nat
  skippedLarge : Nat
  skippedUnsupported : Nat
  results : List (FPath × List Char)
deriving DecidableEq

/-- The parallel section as a fold over the completion order: each file
bumps exactly one counter and, on success, pushes `(path, skeleton)`. -/
def runBatch (ts : List Char → List Char → Option (List QMatch))
    (fsys : FPath → FileEntry) : List FPath → GenState
  | [] => ⟨0, 0, 0, []⟩
  | p :: ps =>
    let rest := runBatch ts fsys ps
    match processFile ts fsys p with
    | .processed skel =>
      ⟨rest.processed + 1, rest.skippedLarge, rest.skippedUnsupported,
        (p, skel) :: rest.results⟩
    | .skippedLarge =>
      ⟨rest.processed, rest.skippedLarge + 1, rest.skippedUnsupported,
        rest.results⟩
    | .skippedUnsupported =>
      ⟨rest.processed, rest.skippedLarge, rest.skippedUnsupported + 1,
        rest.results⟩

/-- `str::replace` for a single-character pattern. -/
def replaceAll (s : List Char) (c : Char) (r : List Char) : List Char :=
  s.flatMap (fun x => if x = c then r else [x])

/-- `stage2.rs::escape_xml_attr` (the chained `replace` calls; the
character `Char.ofNat 39` is the apostrophe). -/
def escape_xml_attr (s : List Char) : List Char :=
  replaceAll (replaceAll (replaceAll (replaceAll (replaceAll
    s '&' "&amp;".toList) '<' "&lt;".toList) '>' "&gt;".toList)
    '"' "&quot;".toList) (Char.ofNat 39) "&apos;".toList

/-- `stage2.rs::escape_xml_content`. -/
def escape_xml_content (s : List Char) : List Char :=
  replaceAll (replaceAll (replaceAll
    s '&' "&amp;".toList) '<' "&lt;".toList) '>' "&gt;".toList

/-- Split on newline characters (all segments, including a final empty
one for a trailing newline). -/
def splitNl : List Char → List (List Char)
  | [] => [[]]
  | c :: rest =>
    if c = '\n' then [] :: splitNl rest
    else
      match splitNl rest with
      | [] => [[c]]
      | l :: ls => (c :: l) :: ls

/-- Strip one trailing carriage return, as `str::lines` does per line. -/
def rstripCr (l : List Char) : List Char :=
  if l.getLast? = some '\r' then l.dropLast else l

/-- `str::lines`: newline-separated segments, without a final empty
segment, each stripped of one trailing carriage return. -/
def linesOf (s : List Char) : List (List Char) :=
  let parts := splitNl s
  (if parts.getLast? = some [] then parts.dropLast else parts).map rstripCr

/-- One `<file path="...">` block (stage2.rs lines 136-149): escaped path
attribute, each skeleton line indented and content-escaped. -/
def fileBlock (pr : FPath × List Char) : List Char :=
  "  <file path=\"".toList ++ escape_xml_attr pr.1 ++ "\">\n".toList
  ++ (linesOf pr.2).foldr
      (fun l acc => "    ".toList ++ escape_xml_content l ++ ['\n'] ++ acc) []
  ++ "  </file>\n".toList

/-- The artifact text (stage2.rs lines 132-151): XML declaration, the
`<files>` wrapper, one block per (sorted) result. -/
def buildArtifact (rs : List (FPath × List Char)) : List Char :=
  "<?xml version=\"1.0\" encoding=\"UTF-8\"?>\n".toList
  ++ "<files>\n".toList
  ++ rs.foldr (fun pr acc => fileBlock pr ++ acc) []
  ++ "</files>\n".toList

/-- `sorted_results.sort_by(|a, b| a.0.cmp(&b.0))` (stage2.rs line 130): a
stable sort of the result vector by path. -/
def sortResults (rs : List (FPath × List Char)) : List (FPath × List Char) :=
  List.insertionSort (fun a b => a.1 ≤ b.1) rs

/-- The `Ok(Some(msg))` return values of `generate`; the `wrote` summary
carries the processed count interpolated into the format string. -/
inductive GenMessage where
  | noFiles
  | noSupported
  | wrote (count : Nat)
deriving DecidableEq

/-- The caller-observable outcome of `generate`: the returned message,
the artifact written to the output path (`none`: no write happened), and
the final counter values. -/
structure GenResult where
  message : GenMessage
  artifact : Option (List Char)
  processed : Nat
  skippedLarge : Nat
  skippedUnsupported : Nat
deriving DecidableEq

/-- `Stage2Generator::generate` (stage2.rs lines 38-162): empty input
returns the placeholder message with no write; otherwise run the parallel
section (over the given completion order), and if nothing was processed
return the second placeholder with no write; otherwise sort by path,
build the artifact, write it, and return the summary. -/
def generate (ts : List Char → List Char → Option (List QMatch))
    (fsys : FPath → FileEntry) (files : List FPath) (order : List FPath) :
    GenResult :=
  if files.length = 0 then ⟨.noFiles, none, 0, 0, 0⟩
  else
    let st := runBatch ts fsys order
    if st.processed = 0 then
      ⟨.noSupported, none, st.processed, st.skippedLarge, st.skippedUnsupported⟩
    else
      ⟨.wrote st.processed, some (buildArtifact (sortResults st.results)),
        st.processed, st.skippedLarge, st.skippedUnsupported⟩

/-! ### Characterizations of the parallel section -/

/-- Whether a path's outcome bumps the processed counter. -/
def isProcessedB (ts : List Char → List Char → Option (List QMatch))
    (fsys : FPath → FileEntry) (p : FPath) : Bool :=
  match processFile ts fsys p with
  | .processed _ => true
  | _ => false

/-- Whether a path's outcome bumps the skipped-large counter. -/
def isLargeB (ts : List Char → List Char → Option (List QMatch))
    (fsys : FPath → FileEntry) (p : FPath) : Bool :=
  match processFile ts fsys p with
  | .skippedLarge => true
  | _ => false

/-- Whether a path's outcome bumps the skipped-unsupported counter. -/
def isUnsupportedB (ts : List Char → List Char → Option (List QMatch))
    (fsys : FPath → FileEntry) (p : FPath) : Bool :=
  match processFile ts fsys p with
  | .skippedUnsupported => true
  | _ => false

/-- The skeleton a processed path records (junk for unprocessed paths). -/
def skelOf (ts : List Char → List Char → Option (List QMatch))
    (fsys : FPath → FileEntry) (p : FPath) : List Char :=
  match processFile ts fsys p with
  | .processed s => s
  | _ => []

theorem runBatch_processed (ts : List Char → List Char → Option (List QMatch))
    (fsys : FPath → FileEntry) (l : List FPath) :
    (runBatch ts fsys l).processed = l.countP (isProcessedB ts fsys) := by
  induction l with
  | nil => rfl
  | cons p ps ih =>
    simp only [runBatch]
    cases h : processFile ts fsys p <;>
      simp [List.countP_cons, isProcessedB, h, ih]

theorem runBatch_large (ts : List Char → List Char → Option (List QMatch))
    (fsys : FPath → FileEntry) (l : List FPath) :
    (runBatch ts fsys l).skippedLarge = l.countP (isLargeB ts fsys) := by
  induction l with
  | nil => rfl
  | cons p ps ih =>
    simp only [runBatch]
    cases h : processFile ts fsys p <;>
      simp [List.countP_cons, isLargeB, h, ih]

theorem runBatch_unsupported (ts : List Char → List Char → Option (List QMatch))
    (fsys : FPath → FileEntry) (l : List FPath) :
    (runBatch ts fsys l).skippedUnsupported
      = l.countP (isUnsupportedB ts fsys) := by
  induction l with
  | nil => rfl
  | cons p ps ih =>
    simp only [runBatch]
    cases h : processFile ts fsys p <;>
      simp [List.countP_cons, isUnsupportedB, h, ih]

theorem runBatch_results (ts : List Char → List Char → Option (List QMatch))
    (fsys : FPath → FileEntry) (l : List FPath) :
    (runBatch ts fsys l).results
      = (l.filter (isProcessedB ts fsys)).map
          (fun p => (p, skelOf ts fsys p)) := by
  induction l with
  | nil => rfl
  | cons p ps ih =>
    simp only [runBatch]
    cases h : processFile ts fsys p <;>
      simp [List.filter_cons, isProcessedB, skelOf, h, ih]

theorem orderedInsert_map_fst (f : FPath → FPath × List Char)
    (hf : ∀ p, (f p).1 = p) (a : FPath) (l : List FPath) :
    List.orderedInsert (fun x y => x.1 ≤ y.1) (f a) (l.map f)
      = (List.orderedInsert (· ≤ ·) a l).map f := by
  induction l with
  | nil => simp [List.orderedInsert]
  | cons b bs ih =>
    simp only [List.map_cons, List.orderedInsert, hf]
    by_cases h : a ≤ b
    · simp [h]
    · simp [h, ih]

theorem sortResults_map (f : FPath → FPath × List Char)
    (hf : ∀ p, (f p).1 = p) (l : List FPath) :
    sortResults (l.map f) = (List.insertionSort (· ≤ ·) l).map f := by
  induction l with
  | nil => rfl
  | cons a l ih =>
    simp only [sortResults, List.map_cons, List.insertionSort] at *
    rw [ih, orderedInsert_map_fst f hf]

theorem insertionSort_perm_eq (l₁ l₂ : List FPath) (h : l₁.Perm l₂) :
    List.insertionSort (· ≤ ·) l₁ = List.insertionSort (· ≤ ·) l₂ := by
  refine List.eq_of_perm_of_sorted ?_ (List.sorted_insertionSort _ l₁)
    (List.sorted_insertionSort _ l₂)
  exact ((List.perm_insertionSort _ l₁).trans h).trans
    (List.perm_insertionSort _ l₂).symm

theorem runBatch_congr (ts : List Char → List Char → Option (List QMatch))
    (fsys fsys' : FPath → FileEntry) (l : List FPath)
    (h : ∀ p ∈ l, processFile ts fsys p = processFile ts fsys' p) :
    runBatch ts fsys l = runBatch ts fsys' l := by
  induction l with
  | nil => rfl
  | cons p ps ih =>
    simp only [runBatch]
    rw [ih (fun q hq => h q (List.mem_cons_of_mem p hq)),
      h p (List.mem_cons_self p ps)]

/-! ### Claim C1: determinism of `generate` -/

/-- Claim C1: with the input file list and the filesystem fixed, the
observable outcome of `Stage2Generator::generate` — message, artifact
bytes, counters — is identical for any two worker completion orders (and
hence for any worker-pool size, which influences nothing but the
completion order): the artifact is a function of the input set alone,
because results are sorted by path before serialization. -/
theorem generate_deterministic
    (ts : List Char → List Char → Option (List QMatch))
    (fsys : FPath → FileEntry) (files o₁ o₂ : List FPath)
    (h₁ : o₁.Perm files) (h₂ : o₂.Perm files) :
    generate ts fsys files o₁ = generate ts fsys files o₂ := by
  have hp : o₁.Perm o₂ := h₁.trans h₂.symm
  have hproc : (runBatch ts fsys o₁).processed
      = (runBatch ts fsys o₂).processed := by
    rw [runBatch_processed, runBatch_processed]
    exact hp.countP_eq _
  have hlarge : (runBatch ts fsys o₁).skippedLarge
      = (runBatch ts fsys o₂).skippedLarge := by
    rw [runBatch_large, runBatch_large]
    exact hp.countP_eq _
  have hunsup : (runBatch ts fsys o₁).skippedUnsupported
      = (runBatch ts fsys o₂).skippedUnsupported := by
    rw [runBatch_unsupported, runBatch_unsupported]
    exact hp.countP_eq _
  have hres : sortResults (runBatch ts fsys o₁).results
      = sortResults (runBatch ts fsys o₂).results := by
    rw [runBatch_results, runBatch_results,
      sortResults_map _ (fun p => rfl), sortResults_map _ (fun p => rfl),
      insertionSort_perm_eq _ _ (hp.filter _)]
  simp only [generate]
  rw [hproc, hlarge, hunsup, hres]

/-- Concrete check of C1: two files completing in opposite orders yield
the same result record. -/
theorem generate_deterministic_witness :
    generate (fun _ _ => some [mUse]) (fun _ => ⟨some 6, some "use a;".toList⟩)
        ["b.rs".toList, "a.rs".toList] ["b.rs".toList, "a.rs".toList]
      = generate (fun _ _ => some [mUse]) (fun _ => ⟨some 6, some "use a;".toList⟩)
        ["b.rs".toList, "a.rs".toList] ["a.rs".toList, "b.rs".toList] := by
  have h := generate_deterministic (fun _ _ => some [mUse])
    (fun _ => ⟨some 6, some "use a;".toList⟩)
    ["b.rs".toList, "a.rs".toList]
    ["b.rs".toList, "a.rs".toList] ["a.rs".toList, "b.rs".toList]
    (by decide) (by decide)
  exact h

/-! ### Claim C10: counter partition -/

theorem runBatch_counts_sum (ts : List Char → List Char → Option (List QMatch))
    (fsys : FPath → FileEntry) (l : List FPath) :
    (runBatch ts fsys l).processed + (runBatch ts fsys l).skippedLarge
      + (runBatch ts fsys l).skippedUnsupported = l.length := by
  induction l with
  | nil => rfl
  | cons p ps ih =>
    simp only [runBatch]
    cases h : processFile ts fsys p <;> simp [h] <;> omega

/-- Claim C10: every input path bumps exactly one of the three counters,
so on completion processed + skipped-large + skipped-unsupported equals
the number of input paths, and the result vector holds exactly one entry
per processed file. -/
theorem counters_partition (ts : List Char → List Char → Option (List QMatch))
    (fsys : FPath → FileEntry) (files order : List FPath)
    (h : order.Perm files) :
    (runBatch ts fsys order).processed + (runBatch ts fsys order).skippedLarge
      + (runBatch ts fsys order).skippedUnsupported = files.length
    ∧ (runBatch ts fsys order).results.length
      = (runBatch ts fsys order).processed := by
  constructor
  · rw [runBatch_counts_sum]
    exact h.length_eq
  · rw [runBatch_results, List.length_map, runBatch_processed,
      List.countP_eq_length_filter]

/-- Concrete check of C10: one supported file, one unreadable file, one
oversized file — counters 1/1/1 summing to 3, one result entry. -/
theorem counters_partition_witness :
    (runBatch (fun _ _ => some [mUse])
      (fun p => if p = "big.rs".toList then ⟨some 6000000, some []⟩
        else if p = "bad.rs".toList then ⟨some 3, none⟩
        else ⟨some 6, some "use a;".toList⟩)
      ["a.rs".toList, "bad.rs".toList, "big.rs".toList]).processed
      + (runBatch (fun _ _ => some [mUse])
      (fun p => if p = "big.rs".toList then ⟨some 6000000, some []⟩
        else if p = "bad.rs".toList then ⟨some 3, none⟩
        else ⟨some 6, some "use a;".toList⟩)
      ["a.rs".toList, "bad.rs".toList, "big.rs".toList]).skippedLarge
      + (runBatch (fun _ _ => some [mUse])
      (fun p => if p = "big.rs".toList then ⟨some 6000000, some []⟩
        else if p = "bad.rs".toList then ⟨some 3, none⟩
        else ⟨some 6, some "use a;".toList⟩)
      ["a.rs".toList, "bad.rs".toList, "big.rs".toList]).skippedUnsupported
      = 3 := by
  have h := (counters_partition (fun _ _ => some [mUse])
    (fun p => if p = "big.rs".toList then ⟨some 6000000, some []⟩
      else if p = "bad.rs".toList then ⟨some 3, none⟩
      else ⟨some 6, some "use a;".toList⟩)
    ["a.rs".toList, "bad.rs".toList, "big.rs".toList]
    ["a.rs".toList, "bad.rs".toList, "big.rs".toList] (by decide)).1
  simpa using h

/-! ### Claim C6: the size gate -/

/-- Claim C6: when the filesystem reports a size above the 5 MiB ceiling
for a path, the loop body skips it before any read (the read-attempt flag
is `false`), the whole run is unchanged under any substitution of that
path's content (the hyperproperty: only the reported size matters), no
result entry ever carries that path, and each occurrence of the path bumps
the skipped-oversized counter exactly once. -/
theorem size_gate (ts : List Char → List Char → Option (List QMatch))
    (fsys fsys' : FPath → FileEntry) (p : FPath) (sz : Nat)
    (files order : List FPath)
    (hm : (fsys p).meta = some sz) (hsz : MAX_FILE_SIZE_FOR_PARSING < sz)
    (hm' : (fsys' p).meta = (fsys p).meta)
    (hag : ∀ q, q ≠ p → fsys' q = fsys q) :
    processFileR ts fsys p = (.skippedLarge, false)
    ∧ generate ts fsys files order = generate ts fsys' files order
    ∧ (∀ s, (p, s) ∉ (runBatch ts fsys order).results)
    ∧ (∀ rest, (runBatch ts fsys (p :: rest)).skippedLarge
        = (runBatch ts fsys rest).skippedLarge + 1) := by
  have hout : processFileR ts fsys p = (.skippedLarge, false) := by
    simp only [processFileR, hm]
    rw [if_pos hsz]
  have hout' : processFileR ts fsys' p = (.skippedLarge, false) := by
    simp only [processFileR, hm'.trans hm]
    rw [if_pos hsz]
  have hpf : ∀ q, processFile ts fsys q = processFile ts fsys' q := by
    intro q
    by_cases hq : q = p
    · subst hq
      simp only [processFile, hout, hout']
    · simp only [processFile, processFileR, hag q hq]
  have hlarge : processFile ts fsys p = .skippedLarge := by
    simp only [processFile, hout]
  refine ⟨hout, ?_, ?_, ?_⟩
  · have hrb := runBatch_congr ts fsys fsys' order (fun q _ => hpf q)
    simp only [generate, hrb]
  · intro s hmem
    rw [runBatch_results] at hmem
    obtain ⟨q, hqf, hqe⟩ := List.mem_map.mp hmem
    obtain ⟨hq1, hq2⟩ := Prod.mk.injEq .. ▸ hqe
    subst hq1
    have := (List.mem_filter.mp hqf).2
    rw [isProcessedB, hlarge] at this
    exact Bool.noConfusion this
  · intro rest
    simp only [runBatch, hlarge]

/-- A filesystem with an oversized `big.rs` next to a small `a.rs`. -/
def fsBig : FPath → FileEntry := fun p =>
  if p = "big.rs".toList then ⟨some 6000000, some "fn a".toList⟩
  else ⟨some 6, some "use a;".toList⟩

/-- The same filesystem with `big.rs` holding different content. -/
def fsBigAlt : FPath → FileEntry := fun p =>
  if p = "big.rs".toList then ⟨some 6000000, some "fn b".toList⟩
  else ⟨some 6, some "use a;".toList⟩

/-- Concrete check of C6: a 6 000 000-byte `big.rs` is gated out without a
read, and replacing its content changes nothing in the whole run. -/
theorem size_gate_witness :
    processFileR (fun _ _ => some [mUse]) fsBig "big.rs".toList
      = (.skippedLarge, false)
    ∧ generate (fun _ _ => some [mUse]) fsBig
        ["big.rs".toList, "a.rs".toList] ["big.rs".toList, "a.rs".toList]
      = generate (fun _ _ => some [mUse]) fsBigAlt
        ["big.rs".toList, "a.rs".toList] ["big.rs".toList, "a.rs".toList] := by
  have h := size_gate (fun _ _ => some [mUse]) fsBig fsBigAlt
    "big.rs".toList 6000000
    ["big.rs".toList, "a.rs".toList] ["big.rs".toList, "a.rs".toList]
    (by decide) (by decide) (by decide)
    (fun q hq => by simp only [fsBig, fsBigAlt, if_neg hq])
  exact ⟨h.1, h.2.1⟩

/-! ### Claim C7: unrecognized extensions -/

/-- Claim C7 counterexample.  The path `doc.md` has the extension `md`,
which is not one of the supported extensions — yet the loop body reaches
`fs::read_to_string` (stage2.rs line 84; the read-attempt flag is `true`):
only the later `skeletonize_file` dispatch rejects the file.  This refutes
"without ever attempting to read the file's content".  (Only a path with
no extension at all is rejected before the read, stage2.rs lines 75-81.) -/
theorem unsupported_ext_read_attempt_cex :
    processFileR (fun _ _ => none)
      (fun _ => ⟨some 5, some "hello".toList⟩) "doc.md".toList
      = (.skippedUnsupported, true) := by
  decide

/-- Claim C7 (amended): under the size gate, a path with no extension is
counted unsupported with no read attempt; a path with an unrecognized
extension is read, but `skeletonize_file` declines it, it is counted
unsupported (exactly once per occurrence), and it never becomes a
processed entry. -/
theorem unsupported_extension_skip
    (ts : List Char → List Char → Option (List QMatch))
    (fsys : FPath → FileEntry) (p : FPath)
    (hgate : ∀ sz, (fsys p).meta = some sz → sz ≤ MAX_FILE_SIZE_FOR_PARSING) :
    (extensionOf p = none →
      processFileR ts fsys p = (.skippedUnsupported, false))
    ∧ (∀ e, extensionOf p = some e → supportedExt e = false →
        processFileR ts fsys p = (.skippedUnsupported, true)
        ∧ ∀ rest, (runBatch ts fsys (p :: rest)).skippedUnsupported
            = (runBatch ts fsys rest).skippedUnsupported + 1) := by
  have hafter : ∀ res, processAfterGate ts (fsys p) p = res →
      processFileR ts fsys p = res := by
    intro res hres
    simp only [processFileR]
    cases hmeta : (fsys p).meta with
    | none => exact hres
    | some sz =>
      have hle := hgate sz hmeta
      dsimp only
      rw [if_neg (by omega)]
      exact hres
  constructor
  · intro hext
    exact hafter _ (by simp only [processAfterGate, hext])
  · intro e hext hsup
    have hout : processFileR ts fsys p = (.skippedUnsupported, true) := by
      refine hafter _ ?_
      simp only [processAfterGate, hext]
      cases hc : (fsys p).content with
      | none => rfl
      | some content =>
        simp only [skeletonize_file, hsup, Bool.false_eq_true, if_false]
    refine ⟨hout, fun rest => ?_⟩
    have : processFile ts fsys p = .skippedUnsupported := by
      simp only [processFile, hout]
    simp only [runBatch, this]

/-- Concrete check of the amended C7: `README` (no extension) is skipped
with no read attempt. -/
theorem unsupported_extension_skip_witness :
    processFileR (fun _ _ => none)
      (fun _ => ⟨some 5, some "abc".toList⟩) "README".toList
      = (.skippedUnsupported, false) := by
  have h := (unsupported_extension_skip (fun _ _ => none)
    (fun _ => ⟨some 5, some "abc".toList⟩) "README".toList
    (fun sz hsz => by injection hsz with h; subst h; decide)).1 (by decide)
  exact h

/-! ### Claim C3: the zero-skeleton batch -/

/-- Claim C3 counterexample.  With an empty input list (and likewise with
a non-empty list none of whose files yields a skeleton), `generate`
returns early (stage2.rs lines 49-51 and 123-125) with only the
placeholder message: `fs::write` at line 154 is never reached of them, so
no artifact file is written at the output path — refuting "still writes
the output artifact file ... explicitly empty-bodied". -/
theorem zero_skeletons_no_artifact_cex :
    ((generate (fun _ _ => none) (fun _ => ⟨none, none⟩) [] []).artifact
        = none
      ∧ (generate (fun _ _ => none) (fun _ => ⟨none, none⟩) [] []).message
        = GenMessage.noFiles)
    ∧ ((generate (fun _ _ => none) (fun _ => ⟨some 1, some "x".toList⟩)
          ["a.rs".toList] ["a.rs".toList]).artifact = none
      ∧ (generate (fun _ _ => none) (fun _ => ⟨some 1, some "x".toList⟩)
          ["a.rs".toList] ["a.rs".toList]).message
        = GenMessage.noSupported) := by
  constructor
  · constructor
    · decide
    · decide
  · constructor
    · decide
    · decide

/-- Claim C3 (amended): when the batch yields zero skeletons — including
the empty-input case — `generate` writes no artifact at all and returns
only a caller-visible placeholder message (one of the two placeholder
variants). -/
theorem zero_skeletons_no_artifact
    (ts : List Char → List Char → Option (List QMatch))
    (fsys : FPath → FileEntry) (files order : List FPath)
    (h : (runBatch ts fsys order).processed = 0) :
    (generate ts fsys files order).artifact = none
    ∧ ((generate ts fsys files order).message = GenMessage.noFiles
        ∨ (generate ts fsys files order).message = GenMessage.noSupported) := by
  simp only [generate]
  by_cases hf : files.length = 0
  · simp [hf]
  · simp [hf, h]

/-- Concrete check of the amended C3: one unreadable file, zero
skeletons, no artifact. -/
theorem zero_skeletons_no_artifact_witness :
    (generate (fun _ _ => none) (fun _ => ⟨some 3, none⟩)
      ["a.txt".toList] ["a.txt".toList]).artifact = none :=
  (zero_skeletons_no_artifact (fun _ _ => none) (fun _ => ⟨some 3, none⟩)
    ["a.txt".toList] ["a.txt".toList] (by decide)).1

/-! ### Claim C2: worker panics

The parallel section of `generate` (stage2.rs lines 64-106) has no
`catch_unwind` (none exists anywhere in the crate) and
`SaccadeError` has no panic/poison variant: rayon re-raises a worker
closure panic in the caller of `par_iter().for_each`, so a panic inside
any single file's processing unwinds out of `generate` itself.  The model
extends the tree-sitter oracle with a `panics` outcome and propagates it
the way rayon does: `.error ()` is the unwinding caller-side panic, `.ok`
a normal return value. -/

/-- Tree-sitter front-end outcome, including an unforeseen runtime panic
inside the third-party grammar. -/
inductive TsOutcome where
  | yields (ms : List QMatch)
  | declines
  | panics
deriving DecidableEq

/-- `skeletonize_file` under the panic-aware oracle. -/
def skeletonize_fileF (tsF : List Char → List Char → TsOutcome)
    (content ext : List Char) : Except Unit (Option (List Char)) :=
  if supportedExt ext then
    match tsF ext content with
    | .yields ms => .ok (skeletonize_matches content ms)
    | .declines => .ok none
    | .panics => .error ()
  else .ok none

/-- The post-gate loop body under the panic-aware oracle. -/
def processAfterGateF (tsF : List Char → List Char → TsOutcome)
    (entry : FileEntry) (p : FPath) : Except Unit FileOutcome :=
  match extensionOf p with
  | none => .ok .skippedUnsupported
  | some ext =>
    match entry.content with
    | some content =>
      match skeletonize_fileF tsF content ext with
      | .ok (some skel) => .ok (.processed skel)
      | .ok none => .ok .skippedUnsupported
      | .error e => .error e
    | none => .ok .skippedUnsupported

/-- The loop body under the panic-aware oracle. -/
def processFileF (tsF : List Char → List Char → TsOutcome)
    (fsys : FPath → FileEntry) (p : FPath) : Except Unit FileOutcome :=
  let entry := fsys p
  match entry.meta with
  | some sz =>
    if sz > MAX_FILE_SIZE_FOR_PARSING then .ok .skippedLarge
    else processAfterGateF tsF entry p
  | none => processAfterGateF tsF entry p

/-- The panic-free view of a panic-aware oracle. -/
def liftTs (tsF : List Char → List Char → TsOutcome) :
    List Char → List Char → Option (List QMatch) :=
  fun ext c =>
    match tsF ext c with
    | .yields ms => some ms
    | _ => none

/-- `generate` with rayon panic semantics: with no catch boundary around
the parallel section, a panic in any worker closure is re-raised in the
caller and `generate` unwinds before reaching the serialization or the
`fs::write`; otherwise the run is the normal one. -/
def generateF (tsF : List Char → List Char → TsOutcome)
    (fsys : FPath → FileEntry) (files order : List FPath) :
    Except Unit GenResult :=
  if files.length = 0 then .ok ⟨.noFiles, none, 0, 0, 0⟩
  else if order.any (fun p =>
      match processFileF tsF fsys p with
      | .error _ => true
      | .ok _ => false) then .error ()
  else .ok (generate (liftTs tsF) fsys files order)

/-- Claim C2 (evaluation of the code at the failing input): a batch whose
single supported, readable file panics inside the grammar makes `generate`
unwind — the caller observes a propagating panic (`.error ()`), not a
contained, distinguishable `SaccadeError`, and the batch is aborted with
no artifact.  This is the divergence between the code and the claim. -/
theorem worker_panic_aborts_generate :
    generateF (fun _ _ => .panics)
      (fun _ => ⟨some 4, some "fn a".toList⟩)
      ["a.rs".toList] ["a.rs".toList] = .error () := by
  rfl
